import Mathlib

/-!
Verification development for the Prog-Assignments repository.

Embedded components:
* `Inversions` — the inversion-counting engine of
  `src/CS-Stanford-Coursera/findInversions.cpp` (class `Inversions`):
  `numInversions`, `numInvSort`, `numInvMerge`, `numInvBase`, `swap`,
  `swapChunk`.  The backing `int numbers[]` array is modelled as a
  `List Int`; every member function is translated into a pure function
  that returns the updated list together with the returned count.
* `InversionsDraft` — the earlier draft in `src/findInversions.cpp`
  (also named class `Inversions` there), whose `numInversions`
  returns `-1` for `nelements > 2`.
* `maxSumKEntriesArray` — `src/ATPs/max_sum_of_k_entries.cpp`:
  `findSumOfN`, `findMaxSumK_BruteForce`, `findMaxSum`.

Machine `int` arithmetic is modelled by unbounded `Int`; none of the
claims concerns 32-bit overflow.  Loops are modelled by structurally
recursive functions with an explicit fuel argument; at every call site
the fuel supplied is an upper bound on the number of iterations the
C loop can perform (each iteration strictly decreases the distance of a
pointer to its end bound), so the embedding agrees with the loop on all
inputs.
-/

namespace Inversions

/-- Contiguous segment `numbers[s .. s+n)` of the backing array, read as a
list (used to model `memmove` sources, which snapshot their input). -/
def listSeg (nums : List Int) (s n : Nat) : List Int :=
  (nums.drop s).take n

/-- Write the values `vs` into consecutive positions starting at `dst`
(the destination side of a `memmove`). -/
def writeChunk : List Int → Nat → List Int → List Int
  | nums, _, [] => nums
  | nums, dst, v :: vs => writeChunk (nums.set dst v) (dst + 1) vs

/-- `Inversions::swap`: `tmp = numbers[i]; numbers[i] = numbers[j];
numbers[j] = tmp;`. -/
def swapIdx (nums : List Int) (i j : Nat) : List Int :=
  (nums.set i (nums.getD j 0)).set j (nums.getD i 0)

/-- `Inversions::swapChunk`: three `memmove`s through a temporary buffer,
`tmp = numbers[i..i+n); numbers[i..) = numbers[j..j+n); numbers[j..) = tmp`. -/
def swapChunk (nums : List Int) (i j n : Nat) : List Int :=
  let tmp := listSeg nums i n
  let step1 := writeChunk nums i (listSeg nums j n)
  writeChunk step1 j tmp

/-- `Inversions::numInvBase`: flip the pair at `start`, `start+1` if out of
order and count one inversion.  (`numbers[start] > numbers[start+1]`.) -/
def numInvBase (nums : List Int) (start : Nat) : List Int × Nat :=
  if nums.getD (start + 1) 0 < nums.getD start 0 then
    (swapIdx nums start (start + 1), 1)
  else
    (nums, 0)

/-- State of the two-pointer merge loop of `Inversions::numInvMerge`:
the live array and the values of `lop`, `hip`, `curr`, `rv`.
In the source, `lop` and `hip` are pointers INTO `numbers` (the local
copies `src_lo`/`src_hi` are made but never read), so the loop reads the
array it is simultaneously overwriting; the embedding reproduces that. -/
structure MState where
  nums : List Int
  lop : Nat
  hip : Nat
  curr : Nat
  rv : Nat

/-- The merge loop `while ((lop < loend) && (hip < hiend)) { ... }` of
`numInvMerge`.  Each iteration advances `lop` or `hip` by one, so the
loop performs at most `(loend - lop) + (hiend - hip)` iterations; any
fuel at least that large yields the loop's exact behaviour. -/
def mergeLoop (loend hiend : Nat) : Nat → MState → MState
  | 0, s => s
  | fuel + 1, s =>
    if s.lop < loend ∧ s.hip < hiend then
      if s.nums.getD s.lop 0 ≤ s.nums.getD s.hip 0 then
        mergeLoop loend hiend fuel
          ⟨s.nums.set s.curr (s.nums.getD s.lop 0), s.lop + 1, s.hip,
           s.curr + 1, s.rv⟩
      else
        mergeLoop loend hiend fuel
          ⟨s.nums.set s.curr (s.nums.getD s.hip 0), s.lop, s.hip + 1,
           s.curr + 1, s.rv + (loend - s.lop)⟩
    else s

/-- `Inversions::numInvMerge`: the two fast paths, then the merge loop,
then the leftover bulk copy with its `leftover_lo_items * nitems_hi`
addition.  The fuel `nlo + nhi` bounds the loop's iteration count. -/
def numInvMerge (nums : List Int) (lo hi nlo nhi : Nat) : List Int × Nat :=
  if nums.getD (lo + nlo - 1) 0 ≤ nums.getD hi 0 then
    (nums, 0)
  else if nlo = nhi ∧ nums.getD (hi + nlo - 1) 0 ≤ nums.getD lo 0 then
    (swapChunk nums lo hi nlo, nlo * nlo)
  else
    let s := mergeLoop (lo + nlo) (hi + nhi) (nlo + nhi) ⟨nums, lo, hi, lo, 0⟩
    if s.lop < lo + nlo then
      (writeChunk s.nums s.curr (listSeg s.nums s.lop (lo + nlo - s.lop)),
       s.rv + (lo + nlo - s.lop) * nhi)
    else
      (s.nums, s.rv)

/-- `Inversions::numInvSort`.  The recursion halves `nitems`, so recursion
depth is below `nitems`; fuel `≥ nitems` yields the source's behaviour. -/
def numInvSort : Nat → List Int → Nat → Nat → List Int × Nat
  | 0, nums, _, _ => (nums, 0)
  | fuel + 1, nums, start, nitems =>
    if nitems ≤ 1 then (nums, 0)
    else if nitems = 2 then numInvBase nums start
    else
      let nlo := nitems / 2
      let p1 := numInvSort fuel nums start nlo
      let nhi := nitems - nlo
      let p2 := numInvSort fuel p1.1 (start + nlo) nhi
      let p3 := numInvMerge p2.1 start (start + nlo) nlo nhi
      (p3.1, p1.2 + p2.2 + p3.2)

/-- `Inversions::numInversions` (`nelements` is the list's length). -/
def numInversions (nums : List Int) : List Int × Nat :=
  if nums.length ≤ 1 then (nums, 0)
  else if nums.length = 2 then numInvBase nums 0
  else
    let nlo := nums.length / 2
    let p1 := numInvSort nums.length nums 0 nlo
    let nhi := nums.length - nlo
    let p2 := numInvSort nums.length p1.1 nlo nhi
    let p3 := numInvMerge p2.1 0 nlo nlo nhi
    (p3.1, p1.2 + p2.2 + p3.2)

/-- Specification oracle, from the spec's words: the number of pairs
`(i, j)` with `i < j` and `S[i] > S[j]`, by O(N²) pairwise comparison
over the given (pre-sort) list. -/
def specInversionCount (l : List Int) : Nat :=
  ((List.range l.length).map (fun i =>
    (List.range l.length).countP
      (fun j => decide (i < j ∧ l.getD j 0 < l.getD i 0)))).sum

/-- Adjacent-pair sortedness of the sub-range `[lo, lo+n)` of the array:
`numbers[lo+i] ≤ numbers[lo+i+1]` for every pair inside the range. -/
def sortedRange (nums : List Int) (lo n : Nat) : Prop :=
  ∀ i < n - 1, nums.getD (lo + i) 0 ≤ nums.getD (lo + i + 1) 0

instance (nums : List Int) (lo n : Nat) : Decidable (sortedRange nums lo n) :=
  Nat.decidableBallLT _ _

end Inversions

namespace InversionsDraft

/-- `Inversions::numInvBase` of the draft `src/findInversions.cpp`
(inline element swap, same flip-and-count-one behaviour). -/
def numInvBase (nums : List Int) (start : Nat) : List Int × Int :=
  if nums.getD (start + 1) 0 < nums.getD start 0 then
    ((nums.set start (nums.getD (start + 1) 0)).set (start + 1)
       (nums.getD start 0), 1)
  else
    (nums, 0)

/-- `Inversions::numInversions` of the draft `src/findInversions.cpp`:
`return -1;` for any `nelements` above 2. -/
def numInversions (nums : List Int) : List Int × Int :=
  if nums.length ≤ 1 then (nums, 0)
  else if nums.length = 2 then numInvBase nums 0
  else (nums, -1)

end InversionsDraft

namespace maxSumKEntriesArray

/-- `maxSumKEntriesArray::findSumOfN`: sum of `n` entries starting at
pointer `start` (here, index `start`). -/
def findSumOfN (a : List Int) (start n : Nat) : Int :=
  (List.range n).foldl (fun result i => result + a.getD (start + i) 0) 0

/-- `maxSumKEntriesArray::findMaxSumK_BruteForce`.  `maxStartIndex` is the
caller-supplied initial value of `*maxStartIndex`; the returned pair is
(return value, final `*maxStartIndex`).  The loop visits window starts
`0 .. arraySize-k` (that is `arraySize + 1 - k` of them), with running
best initialized to `0` and updated only on strict improvement. -/
def findMaxSumK_BruteForce (a : List Int) (k : Nat) (maxStartIndex : Int) :
    Int × Int :=
  if a.length ≤ k then (findSumOfN a 0 a.length, 0)
  else
    (List.range (a.length + 1 - k)).foldl
      (fun acc start =>
        let thisMaxSum := findSumOfN a start k
        if acc.1 < thisMaxSum then (thisMaxSum, (start : Int)) else acc)
      (0, maxStartIndex)

/-- `maxSumKEntriesArray::findMaxSum` (sliding window).  The state carried
through the loop is `(currSum, result, *maxStartIndex)`; the loop body
drops `a[i]`, adds `a[i+k]` and records start index `i+1` on strict
improvement.  The loop runs while `end < arrayEnd`, i.e. `arraySize - k`
times. -/
def findMaxSum (a : List Int) (k : Nat) : Int × Int :=
  if a.length ≤ k then (findSumOfN a 0 a.length, 0)
  else
    let currSum0 := (List.range k).foldl
      (fun currSum i => currSum + a.getD (0 + i) 0) 0
    let st := (List.range (a.length - k)).foldl
      (fun (acc : Int × Int × Int) i =>
        let currSum := acc.1 - a.getD i 0 + a.getD (i + k) 0
        if acc.2.1 < currSum then (currSum, currSum, ((i + 1 : Nat) : Int))
        else (currSum, acc.2.1, acc.2.2))
      (currSum0, currSum0, 0)
    (st.2.1, st.2.2)

/-- Specification oracle, from the spec's words: the list of all
contiguous k-window sums, one per start index `0 .. N-k`. -/
def windowSums (a : List Int) (k : Nat) : List Int :=
  (List.range (a.length + 1 - k)).map (fun start => findSumOfN a start k)

/-- Specification oracle, from the spec's words: the true maximum window
sum (the first window's sum joined by `max` with all the others). -/
def maxWindowSum (a : List Int) (k : Nat) : Int :=
  (windowSums a k).foldl max (findSumOfN a 0 k)

end maxSumKEntriesArray

namespace Inversions

/-! Basic lemmas about indexed reads (`getD`) and writes (`set`) on the
backing array. -/

theorem getD_set_self (l : List Int) (i : Nat) (v : Int) (h : i < l.length) :
    (l.set i v).getD i 0 = v := by
  induction l generalizing i with
  | nil => simp at h
  | cons a t ih =>
    cases i with
    | zero => simp [List.getD]
    | succ n =>
      simp only [List.set_cons_succ, List.getD_cons_succ]
      exact ih n (by simpa using h)

theorem getD_set_ne (l : List Int) (i j : Nat) (v : Int) (h : i ≠ j) :
    (l.set i v).getD j 0 = l.getD j 0 := by
  induction l generalizing i j with
  | nil => simp
  | cons a t ih =>
    cases i with
    | zero =>
      cases j with
      | zero => exact absurd rfl h
      | succ m => simp [List.getD]
    | succ n =>
      cases j with
      | zero => simp [List.getD]
      | succ m =>
        simp only [List.set_cons_succ, List.getD_cons_succ]
        exact ih n m (by omega)

theorem set_getD_self (l : List Int) (i : Nat) :
    l.set i (l.getD i 0) = l := by
  induction l generalizing i with
  | nil => simp
  | cons a t ih =>
    cases i with
    | zero => simp [List.getD]
    | succ n => simp only [List.getD_cons_succ, List.set_cons_succ, ih]

theorem getD_replicate (n i : Nat) (v : Int) (h : i < n) :
    (List.replicate n v).getD i 0 = v := by
  induction n generalizing i with
  | zero => omega
  | succ m ih =>
    cases i with
    | zero => simp [List.replicate_succ, List.getD]
    | succ t =>
      simp only [List.replicate_succ, List.getD_cons_succ]
      exact ih t (by omega)

theorem getD_take (l : List Int) (n i : Nat) (h : i < n) :
    (l.take n).getD i 0 = l.getD i 0 := by
  induction l generalizing n i with
  | nil => simp
  | cons a t ih =>
    cases n with
    | zero => omega
    | succ m =>
      cases i with
      | zero => simp [List.getD]
      | succ j =>
        simp only [List.take_succ_cons, List.getD_cons_succ]
        exact ih m j (by omega)

theorem getD_drop (l : List Int) (s i : Nat) :
    (l.drop s).getD i 0 = l.getD (s + i) 0 := by
  induction l generalizing s with
  | nil => simp
  | cons a t ih =>
    cases s with
    | zero => simp
    | succ m =>
      simp only [List.drop_succ_cons]
      rw [ih m]
      have : m + 1 + i = (m + i) + 1 := by omega
      rw [this, List.getD_cons_succ]

/-! Lemmas about `writeChunk` and `listSeg` (the `memmove` model). -/

theorem writeChunk_length (vs : List Int) :
    ∀ (nums : List Int) (d : Nat), (writeChunk nums d vs).length = nums.length := by
  induction vs with
  | nil => intro nums d; rfl
  | cons v vs ih =>
    intro nums d
    simp only [writeChunk]
    rw [ih, List.length_set]

theorem writeChunk_getD_lt (vs : List Int) :
    ∀ (nums : List Int) (d x : Nat), x < d →
      (writeChunk nums d vs).getD x 0 = nums.getD x 0 := by
  induction vs with
  | nil => intro nums d x _; rfl
  | cons v vs ih =>
    intro nums d x h
    simp only [writeChunk]
    rw [ih _ _ _ (by omega), getD_set_ne _ _ _ _ (by omega)]

theorem writeChunk_getD_ge (vs : List Int) :
    ∀ (nums : List Int) (d x : Nat), d + vs.length ≤ x →
      (writeChunk nums d vs).getD x 0 = nums.getD x 0 := by
  induction vs with
  | nil => intro nums d x _; rfl
  | cons v vs ih =>
    intro nums d x h
    simp only [List.length_cons] at h
    simp only [writeChunk]
    rw [ih _ _ _ (by omega), getD_set_ne _ _ _ _ (by omega)]

theorem writeChunk_getD_in (vs : List Int) :
    ∀ (nums : List Int) (d x : Nat), d ≤ x → x < d + vs.length →
      d + vs.length ≤ nums.length →
      (writeChunk nums d vs).getD x 0 = vs.getD (x - d) 0 := by
  induction vs with
  | nil => intro nums d x h1 h2 _; simp at h2; omega
  | cons v vs ih =>
    intro nums d x h1 h2 hlen
    simp only [List.length_cons] at h2 hlen
    simp only [writeChunk]
    rcases Nat.eq_or_lt_of_le h1 with rfl | hgt
    · rw [writeChunk_getD_lt _ _ _ _ (by omega),
        getD_set_self _ _ _ (by omega)]
      simp
    · rw [ih _ _ _ (by omega) (by omega) (by rw [List.length_set]; omega)]
      have hx : x - d = (x - (d + 1)) + 1 := by omega
      rw [hx, List.getD_cons_succ]

theorem writeChunk_append (vs ws : List Int) :
    ∀ (nums : List Int) (d : Nat),
      writeChunk nums d (vs ++ ws)
        = writeChunk (writeChunk nums d vs) (d + vs.length) ws := by
  induction vs with
  | nil => intro nums d; simp [writeChunk]
  | cons v vs ih =>
    intro nums d
    simp only [List.cons_append, writeChunk, List.length_cons]
    rw [List.append_eq, ih]
    have : d + 1 + vs.length = d + (vs.length + 1) := by omega
    rw [this]

theorem writeChunk_singleton (nums : List Int) (d : Nat) (v : Int) :
    writeChunk nums d [v] = nums.set d v := rfl

theorem listSeg_length (nums : List Int) (s n : Nat) (h : s + n ≤ nums.length) :
    (listSeg nums s n).length = n := by
  simp only [listSeg, List.length_take, List.length_drop]
  omega

theorem listSeg_getD (nums : List Int) (s n i : Nat) (h : i < n) :
    (listSeg nums s n).getD i 0 = nums.getD (s + i) 0 := by
  simp only [listSeg]
  rw [getD_take _ _ _ h, getD_drop]

/-! Lemmas about `sortedRange`. -/

theorem sortedRange_of (nums : List Int) (lo n : Nat)
    (h : ∀ i, lo ≤ i → i + 1 < lo + n →
      nums.getD i 0 ≤ nums.getD (i + 1) 0) :
    sortedRange nums lo n := by
  intro i hi
  exact h (lo + i) (by omega) (by omega)

theorem sortedRange_pair (nums : List Int) (lo n i : Nat)
    (h : sortedRange nums lo n) (h1 : lo ≤ i) (h2 : i + 1 < lo + n) :
    nums.getD i 0 ≤ nums.getD (i + 1) 0 := by
  have hh := h (i - lo) (by omega)
  have e1 : lo + (i - lo) = i := by omega
  rw [e1] at hh
  exact hh

theorem sortedRange_congr (numsA numsB : List Int) (lo n : Nat)
    (heq : ∀ x, lo ≤ x → x < lo + n → numsB.getD x 0 = numsA.getD x 0)
    (h : sortedRange numsA lo n) : sortedRange numsB lo n := by
  apply sortedRange_of
  intro i h1 h2
  rw [heq i h1 (by omega), heq (i + 1) (by omega) (by omega)]
  exact sortedRange_pair _ _ _ _ h h1 h2

end Inversions

namespace Inversions

/-! Characterization of the merge loop.  Because `lop`/`hip` walk the
live array, once the first upper-half element is written at `curr = lop`
every later read of `*lop` returns that value `u0 = numbers[hi]`, which
is `≤` every remaining upper element; so the loop performs some fresh
lower-half copies (phase 1), exactly one upper take, then repeatedly
re-copies `u0` until `lop` reaches `loend` (phase 2).  Below, `k` is the
offset of the first lower-half element exceeding `u0`. -/

theorem mergeLoop_stop (loend hiend fuel : Nat) (s : MState)
    (h : ¬ (s.lop < loend ∧ s.hip < hiend)) :
    mergeLoop loend hiend fuel s = s := by
  cases fuel with
  | zero => rfl
  | succ f => simp [mergeLoop, h]

theorem mergeLoop_phase1 (A : List Int) (lo nlo nhi k : Nat)
    (hk : k < nlo) (hnhi : 1 ≤ nhi)
    (hkle : ∀ t, t < k → A.getD (lo + t) 0 ≤ A.getD (lo + nlo) 0) :
    ∀ d j fuel, j + d = k →
      mergeLoop (lo + nlo) (lo + nlo + nhi) (fuel + d)
          ⟨A, lo + j, lo + nlo, lo + j, 0⟩
        = mergeLoop (lo + nlo) (lo + nlo + nhi) fuel
            ⟨A, lo + k, lo + nlo, lo + k, 0⟩ := by
  intro d
  induction d with
  | zero =>
    intro j fuel hj
    have hjk : j = k := by omega
    subst hjk
    rfl
  | succ e ih =>
    intro j fuel hj
    have hcond : lo + j < lo + nlo ∧ lo + nlo < lo + nlo + nhi :=
      ⟨by omega, by omega⟩
    have hbr : A.getD (lo + j) 0 ≤ A.getD (lo + nlo) 0 := hkle j (by omega)
    rw [show fuel + (e + 1) = (fuel + e) + 1 from by omega]
    simp only [mergeLoop]
    rw [if_pos hcond, if_pos hbr, set_getD_self]
    exact ih (j + 1) fuel (by omega)

theorem mergeLoop_take (A : List Int) (lo nlo nhi k : Nat)
    (hk : k < nlo) (hnhi : 1 ≤ nhi)
    (hkgt : A.getD (lo + nlo) 0 < A.getD (lo + k) 0) :
    ∀ fuel,
      mergeLoop (lo + nlo) (lo + nlo + nhi) (fuel + 1)
          ⟨A, lo + k, lo + nlo, lo + k, 0⟩
        = mergeLoop (lo + nlo) (lo + nlo + nhi) fuel
            ⟨A.set (lo + k) (A.getD (lo + nlo) 0), lo + k, lo + nlo + 1,
             lo + k + 1, nlo - k⟩ := by
  intro fuel
  have hcond : lo + k < lo + nlo ∧ lo + nlo < lo + nlo + nhi :=
    ⟨by omega, by omega⟩
  simp only [mergeLoop]
  rw [if_pos hcond, if_neg (not_le.mpr hkgt)]
  rw [show (0 : Nat) + (lo + nlo - (lo + k)) = nlo - k from by omega]

theorem mergeLoop_phase2 (A : List Int) (lo nlo nhi k : Nat)
    (hlen : lo + nlo + nhi ≤ A.length) (hk : k < nlo) (hnhi : 2 ≤ nhi)
    (hU01 : A.getD (lo + nlo) 0 ≤ A.getD (lo + nlo + 1) 0) :
    ∀ d m fuel, m + d = nlo - k →
      mergeLoop (lo + nlo) (lo + nlo + nhi) (fuel + d)
          ⟨writeChunk A (lo + k)
             (List.replicate (m + 1) (A.getD (lo + nlo) 0)),
           lo + k + m, lo + nlo + 1, lo + k + m + 1, nlo - k⟩
        = mergeLoop (lo + nlo) (lo + nlo + nhi) fuel
            ⟨writeChunk A (lo + k)
               (List.replicate (nlo - k + 1) (A.getD (lo + nlo) 0)),
             lo + nlo, lo + nlo + 1, lo + nlo + 1, nlo - k⟩ := by
  intro d
  induction d with
  | zero =>
    intro m fuel hm
    have hm' : m = nlo - k := by omega
    subst hm'
    rw [show lo + k + (nlo - k) = lo + nlo from by omega]
    rfl
  | succ e ih =>
    intro m fuel hm
    have hcond : lo + k + m < lo + nlo ∧ lo + nlo + 1 < lo + nlo + nhi :=
      ⟨by omega, by omega⟩
    have hlopread :
        (writeChunk A (lo + k)
          (List.replicate (m + 1) (A.getD (lo + nlo) 0))).getD (lo + k + m) 0
          = A.getD (lo + nlo) 0 := by
      rw [writeChunk_getD_in _ _ _ _ (by omega)
          (by rw [List.length_replicate]; omega)
          (by rw [List.length_replicate]; omega)]
      exact getD_replicate _ _ _ (by omega)
    have hhipread :
        (writeChunk A (lo + k)
          (List.replicate (m + 1) (A.getD (lo + nlo) 0))).getD (lo + nlo + 1) 0
          = A.getD (lo + nlo + 1) 0 := by
      rw [writeChunk_getD_ge _ _ _ _ (by rw [List.length_replicate]; omega)]
    rw [show fuel + (e + 1) = (fuel + e) + 1 from by omega]
    simp only [mergeLoop]
    rw [if_pos hcond, hlopread, hhipread, if_pos hU01]
    have hset :
        (writeChunk A (lo + k)
            (List.replicate (m + 1) (A.getD (lo + nlo) 0))).set
            (lo + k + m + 1) (A.getD (lo + nlo) 0)
          = writeChunk A (lo + k)
              (List.replicate (m + 1 + 1) (A.getD (lo + nlo) 0)) := by
      conv_rhs =>
        rw [List.replicate_add, writeChunk_append, List.length_replicate,
          List.replicate_one, writeChunk_singleton]
      rfl
    rw [hset]
    exact ih (m + 1) fuel (by omega)

theorem mergeLoop_run (A : List Int) (lo nlo nhi k : Nat)
    (hlen : lo + nlo + nhi ≤ A.length) (hk : k < nlo) (hnhi : 2 ≤ nhi)
    (hkle : ∀ t, t < k → A.getD (lo + t) 0 ≤ A.getD (lo + nlo) 0)
    (hkgt : A.getD (lo + nlo) 0 < A.getD (lo + k) 0)
    (hU01 : A.getD (lo + nlo) 0 ≤ A.getD (lo + nlo + 1) 0) :
    mergeLoop (lo + nlo) (lo + nlo + nhi) (nlo + nhi) ⟨A, lo, lo + nlo, lo, 0⟩
      = ⟨writeChunk A (lo + k)
           (List.replicate (nlo - k + 1) (A.getD (lo + nlo) 0)),
         lo + nlo, lo + nlo + 1, lo + nlo + 1, nlo - k⟩ := by
  have h1 := mergeLoop_phase1 A lo nlo nhi k hk (by omega) hkle k 0
    (nlo + nhi - k) (by omega)
  simp only [Nat.add_zero] at h1
  have h2 := mergeLoop_take A lo nlo nhi k hk (by omega) hkgt
    (nlo + nhi - k - 1)
  have h3 := mergeLoop_phase2 A lo nlo nhi k hlen hk hnhi hU01 (nlo - k) 0
    (nhi - 1) (by omega)
  simp only [Nat.add_zero, writeChunk_singleton, List.replicate_one] at h3
  have hstop := mergeLoop_stop (lo + nlo) (lo + nlo + nhi) (nhi - 1)
    ⟨writeChunk A (lo + k)
       (List.replicate (nlo - k + 1) (A.getD (lo + nlo) 0)),
     lo + nlo, lo + nlo + 1, lo + nlo + 1, nlo - k⟩ (by simp)
  calc mergeLoop (lo + nlo) (lo + nlo + nhi) (nlo + nhi)
          ⟨A, lo, lo + nlo, lo, 0⟩
      = mergeLoop (lo + nlo) (lo + nlo + nhi) ((nlo + nhi - k) + k)
          ⟨A, lo, lo + nlo, lo, 0⟩ := by
        rw [show nlo + nhi - k + k = nlo + nhi from by omega]
    _ = mergeLoop (lo + nlo) (lo + nlo + nhi) (nlo + nhi - k)
          ⟨A, lo + k, lo + nlo, lo + k, 0⟩ := h1
    _ = mergeLoop (lo + nlo) (lo + nlo + nhi) ((nlo + nhi - k - 1) + 1)
          ⟨A, lo + k, lo + nlo, lo + k, 0⟩ := by
        rw [show nlo + nhi - k - 1 + 1 = nlo + nhi - k from by omega]
    _ = mergeLoop (lo + nlo) (lo + nlo + nhi) (nlo + nhi - k - 1)
          ⟨A.set (lo + k) (A.getD (lo + nlo) 0), lo + k, lo + nlo + 1,
           lo + k + 1, nlo - k⟩ := h2
    _ = mergeLoop (lo + nlo) (lo + nlo + nhi) ((nhi - 1) + (nlo - k))
          ⟨A.set (lo + k) (A.getD (lo + nlo) 0), lo + k, lo + nlo + 1,
           lo + k + 1, nlo - k⟩ := by
        rw [show nhi - 1 + (nlo - k) = nlo + nhi - k - 1 from by omega]
    _ = mergeLoop (lo + nlo) (lo + nlo + nhi) (nhi - 1)
          ⟨writeChunk A (lo + k)
             (List.replicate (nlo - k + 1) (A.getD (lo + nlo) 0)),
           lo + nlo, lo + nlo + 1, lo + nlo + 1, nlo - k⟩ := h3
    _ = _ := hstop

end Inversions

namespace Inversions

/-! Pointwise characterization of `swapChunk` (for disjoint chunks, as in
its single call site where `j = i + n`). -/

theorem swapChunk_length (nums : List Int) (i j n : Nat) :
    (swapChunk nums i j n).length = nums.length := by
  simp only [swapChunk]
  rw [writeChunk_length, writeChunk_length]

theorem swapChunk_getD_low (nums : List Int) (i j n x : Nat)
    (hij : i + n ≤ j) (hlen : j + n ≤ nums.length)
    (h1 : i ≤ x) (h2 : x < i + n) :
    (swapChunk nums i j n).getD x 0 = nums.getD (j + (x - i)) 0 := by
  simp only [swapChunk]
  rw [writeChunk_getD_lt _ _ _ _ (by omega)]
  rw [writeChunk_getD_in _ _ _ _ h1
      (by rw [listSeg_length _ _ _ hlen]; omega)
      (by rw [listSeg_length _ _ _ hlen]; omega)]
  exact listSeg_getD _ _ _ _ (by omega)

theorem swapChunk_getD_high (nums : List Int) (i j n x : Nat)
    (hij : i + n ≤ j) (hlen : j + n ≤ nums.length)
    (h1 : j ≤ x) (h2 : x < j + n) :
    (swapChunk nums i j n).getD x 0 = nums.getD (i + (x - j)) 0 := by
  simp only [swapChunk]
  rw [writeChunk_getD_in _ _ _ _ h1
      (by rw [listSeg_length _ _ _ (by omega)]; omega)
      (by rw [listSeg_length _ _ _ (by omega)]
          rw [writeChunk_length]; omega)]
  exact listSeg_getD _ _ _ _ (by omega)

theorem swapChunk_getD_out (nums : List Int) (i j n x : Nat)
    (hij : i + n ≤ j) (hlen : j + n ≤ nums.length)
    (h : x < i ∨ j + n ≤ x) :
    (swapChunk nums i j n).getD x 0 = nums.getD x 0 := by
  simp only [swapChunk]
  rcases h with h | h
  · rw [writeChunk_getD_lt _ _ _ _ (by omega),
      writeChunk_getD_lt _ _ _ _ (by omega)]
  · rw [writeChunk_getD_ge _ _ _ _
        (by rw [listSeg_length _ _ _ (by omega)]; omega),
      writeChunk_getD_ge _ _ _ _
        (by rw [listSeg_length _ _ _ hlen]; omega)]

theorem swapChunk_getD_mid (nums : List Int) (i j n x : Nat)
    (hij : i + n ≤ j) (hlen : j + n ≤ nums.length)
    (h1 : i + n ≤ x) (h2 : x < j) :
    (swapChunk nums i j n).getD x 0 = nums.getD x 0 := by
  simp only [swapChunk]
  rw [writeChunk_getD_lt _ _ _ _ (by omega),
    writeChunk_getD_ge _ _ _ _
      (by rw [listSeg_length _ _ _ (by omega)]; omega)]

/-! The three outcomes of `numInvMerge`. -/

theorem numInvMerge_fast1 (nums : List Int) (lo hi nlo nhi : Nat)
    (h : nums.getD (lo + nlo - 1) 0 ≤ nums.getD hi 0) :
    numInvMerge nums lo hi nlo nhi = (nums, 0) := by
  simp only [numInvMerge]
  rw [if_pos h]

theorem numInvMerge_fast2 (nums : List Int) (lo hi nlo nhi : Nat)
    (h1 : ¬ (nums.getD (lo + nlo - 1) 0 ≤ nums.getD hi 0))
    (h2 : nlo = nhi) (h3 : nums.getD (hi + nlo - 1) 0 ≤ nums.getD lo 0) :
    numInvMerge nums lo hi nlo nhi = (swapChunk nums lo hi nlo, nlo * nlo) := by
  simp only [numInvMerge]
  rw [if_neg h1, if_pos ⟨h2, h3⟩]

theorem numInvMerge_loop (A : List Int) (lo nlo nhi k : Nat)
    (hlen : lo + nlo + nhi ≤ A.length) (hk : k < nlo) (hnhi : 2 ≤ nhi)
    (hkle : ∀ t, t < k → A.getD (lo + t) 0 ≤ A.getD (lo + nlo) 0)
    (hkgt : A.getD (lo + nlo) 0 < A.getD (lo + k) 0)
    (hU01 : A.getD (lo + nlo) 0 ≤ A.getD (lo + nlo + 1) 0)
    (h1 : ¬ (A.getD (lo + nlo - 1) 0 ≤ A.getD (lo + nlo) 0))
    (h2 : ¬ (nlo = nhi ∧ A.getD (lo + nlo + nlo - 1) 0 ≤ A.getD lo 0)) :
    numInvMerge A lo (lo + nlo) nlo nhi
      = (writeChunk A (lo + k)
           (List.replicate (nlo - k + 1) (A.getD (lo + nlo) 0)),
         nlo - k) := by
  simp only [numInvMerge]
  rw [if_neg h1, if_neg h2,
    mergeLoop_run A lo nlo nhi k hlen hk hnhi hkle hkgt hU01]
  simp

end Inversions

namespace Inversions

/-- Full specification of `numInvMerge` on calls of the shape the
recursion produces (`hi = lo + nlo`, `1 ≤ nlo`, `2 ≤ nhi`, both halves
sorted, in bounds): the result replaces the sub-range `[lo, lo+nlo+nhi)`
by a sorted run (data may be lost — the loop reads the array it
overwrites — but sortedness always holds), leaves everything outside the
sub-range untouched, and preserves the length. -/
theorem numInvMerge_spec (A : List Int) (lo nlo nhi : Nat)
    (hnlo : 1 ≤ nlo) (hnhi : 2 ≤ nhi) (hlen : lo + nlo + nhi ≤ A.length)
    (hL : sortedRange A lo nlo) (hU : sortedRange A (lo + nlo) nhi) :
    ∃ B rv, numInvMerge A lo (lo + nlo) nlo nhi = (B, rv)
      ∧ B.length = A.length
      ∧ (∀ x, x < lo ∨ lo + nlo + nhi ≤ x → B.getD x 0 = A.getD x 0)
      ∧ sortedRange B lo (nlo + nhi) := by
  by_cases hc1 : A.getD (lo + nlo - 1) 0 ≤ A.getD (lo + nlo) 0
  · -- fast path 1: already merged
    refine ⟨A, 0, numInvMerge_fast1 _ _ _ _ _ hc1, rfl, fun x _ => rfl, ?_⟩
    apply sortedRange_of
    intro i h1 h2
    rcases Nat.lt_trichotomy (i + 1) (lo + nlo) with h | h | h
    · exact sortedRange_pair _ _ _ _ hL h1 h
    · rw [show i = lo + nlo - 1 from by omega,
        show lo + nlo - 1 + 1 = lo + nlo from by omega]
      exact hc1
    · exact sortedRange_pair _ _ _ _ hU (by omega) (by omega)
  · by_cases hc2 : nlo = nhi ∧ A.getD (lo + nlo + nlo - 1) 0 ≤ A.getD lo 0
    · -- fast path 2: block exchange
      obtain ⟨hc2a, hc2b⟩ := hc2
      have hlen2 : (lo + nlo) + nlo ≤ A.length := by omega
      have hij : lo + nlo ≤ lo + nlo := le_refl _
      refine ⟨swapChunk A lo (lo + nlo) nlo, nlo * nlo,
        numInvMerge_fast2 _ _ _ _ _ hc1 hc2a hc2b,
        swapChunk_length _ _ _ _, ?_, ?_⟩
      · intro x hx
        apply swapChunk_getD_out _ _ _ _ _ hij hlen2
        omega
      · apply sortedRange_of
        intro i h1 h2
        have h2' : i + 1 < lo + nlo + nlo := by omega
        rcases Nat.lt_trichotomy (i + 1) (lo + nlo) with h | h | h
        · rw [swapChunk_getD_low _ _ _ _ _ hij hlen2 h1 (by omega),
            swapChunk_getD_low _ _ _ _ _ hij hlen2 (by omega) (by omega)]
          have e1 : lo + nlo + (i + 1 - lo) = (lo + nlo + (i - lo)) + 1 := by
            omega
          rw [e1]
          exact sortedRange_pair _ _ _ _ hU (by omega) (by omega)
        · rw [swapChunk_getD_low _ _ _ _ _ hij hlen2 h1 (by omega),
            swapChunk_getD_high _ _ _ _ _ hij hlen2 (by omega) (by omega)]
          rw [show lo + nlo + (i - lo) = lo + nlo + nlo - 1 from by omega,
            show lo + (i + 1 - (lo + nlo)) = lo from by omega]
          exact hc2b
        · rw [swapChunk_getD_high _ _ _ _ _ hij hlen2 (by omega) (by omega),
            swapChunk_getD_high _ _ _ _ _ hij hlen2 (by omega) (by omega)]
          have e1 : lo + (i + 1 - (lo + nlo)) = (lo + (i - (lo + nlo))) + 1 := by
            omega
          rw [e1]
          exact sortedRange_pair _ _ _ _ hL (by omega) (by omega)
    · -- main merge loop
      have hlast : A.getD (lo + nlo) 0 < A.getD (lo + nlo - 1) 0 :=
        not_le.mp hc1
      have hex : ∃ t, A.getD (lo + nlo) 0 < A.getD (lo + t) 0 :=
        ⟨nlo - 1, by rw [show lo + (nlo - 1) = lo + nlo - 1 from by omega]
                     exact hlast⟩
      set k := Nat.find hex with hkdef
      have hkgt : A.getD (lo + nlo) 0 < A.getD (lo + k) 0 := Nat.find_spec hex
      have hk : k < nlo := by
        have := Nat.find_min' hex
          (by rw [show lo + (nlo - 1) = lo + nlo - 1 from by omega]
              exact hlast)
        omega
      have hkle : ∀ t, t < k → A.getD (lo + t) 0 ≤ A.getD (lo + nlo) 0 :=
        fun t ht => not_lt.mp (Nat.find_min hex ht)
      have hU01 : A.getD (lo + nlo) 0 ≤ A.getD (lo + nlo + 1) 0 :=
        sortedRange_pair _ _ _ _ hU (le_refl _) (by omega)
      have hres := numInvMerge_loop A lo nlo nhi k hlen hk hnhi hkle hkgt
        hU01 hc1 hc2
      have hreplen : lo + k + (nlo - k + 1) = lo + nlo + 1 := by omega
      have hBlen :
          (writeChunk A (lo + k)
            (List.replicate (nlo - k + 1) (A.getD (lo + nlo) 0))).length
            = A.length := writeChunk_length _ _ _
      have hBin : ∀ x, lo + k ≤ x → x ≤ lo + nlo →
          (writeChunk A (lo + k)
            (List.replicate (nlo - k + 1) (A.getD (lo + nlo) 0))).getD x 0
            = A.getD (lo + nlo) 0 := by
        intro x hx1 hx2
        rw [writeChunk_getD_in _ _ _ _ hx1
            (by rw [List.length_replicate]; omega)
            (by rw [List.length_replicate]; omega)]
        exact getD_replicate _ _ _ (by omega)
      have hBlow : ∀ x, x < lo + k →
          (writeChunk A (lo + k)
            (List.replicate (nlo - k + 1) (A.getD (lo + nlo) 0))).getD x 0
            = A.getD x 0 := by
        intro x hx
        exact writeChunk_getD_lt _ _ _ _ hx
      have hBhigh : ∀ x, lo + nlo + 1 ≤ x →
          (writeChunk A (lo + k)
            (List.replicate (nlo - k + 1) (A.getD (lo + nlo) 0))).getD x 0
            = A.getD x 0 := by
        intro x hx
        exact writeChunk_getD_ge _ _ _ _
          (by rw [List.length_replicate]; omega)
      refine ⟨_, _, hres, hBlen, ?_, ?_⟩
      · intro x hx
        rcases hx with hx | hx
        · exact hBlow x (by omega)
        · exact hBhigh x (by omega)
      · apply sortedRange_of
        intro i h1 h2
        by_cases c1 : i + 1 < lo + k
        · rw [hBlow i (by omega), hBlow (i + 1) c1]
          exact sortedRange_pair _ _ _ _ hL h1 (by omega)
        · by_cases c2 : i + 1 = lo + k
          · rw [hBlow i (by omega), hBin (i + 1) (by omega) (by omega)]
            have := hkle (i - lo) (by omega)
            rw [show lo + (i - lo) = i from by omega] at this
            exact this
          · by_cases c3 : i + 1 ≤ lo + nlo
            · rw [hBin i (by omega) (by omega), hBin (i + 1) (by omega) c3]
            · by_cases c4 : i = lo + nlo
              · rw [hBin i (by omega) (by omega), hBhigh (i + 1) (by omega)]
                rw [show i + 1 = lo + nlo + 1 from by omega]
                exact hU01
              · rw [hBhigh i (by omega), hBhigh (i + 1) (by omega)]
                exact sortedRange_pair _ _ _ _ hU (by omega) (by omega)

end Inversions

namespace Inversions

theorem swapIdx_length (nums : List Int) (i j : Nat) :
    (swapIdx nums i j).length = nums.length := by
  simp only [swapIdx]
  rw [List.length_set, List.length_set]

theorem sortedRange_small (nums : List Int) (lo n : Nat) (h : n ≤ 1) :
    sortedRange nums lo n := by
  intro i hi
  exact absurd hi (by omega)

theorem sortedRange_sub (nums : List Int) (lo n lo' n' : Nat)
    (h : sortedRange nums lo n) (h1 : lo ≤ lo') (h2 : lo' + n' ≤ lo + n) :
    sortedRange nums lo' n' := by
  intro i hi
  exact sortedRange_pair _ _ _ _ h (by omega) (by omega)

/-- Specification of the base case `numInvBase`: in-bounds pair swap,
leaving the pair sorted, everything else untouched. -/
theorem numInvBase_spec (A : List Int) (start : Nat)
    (hlen : start + 2 ≤ A.length) :
    ∃ B c, numInvBase A start = (B, c)
      ∧ B.length = A.length
      ∧ (∀ x, x < start ∨ start + 2 ≤ x → B.getD x 0 = A.getD x 0)
      ∧ sortedRange B start 2 := by
  by_cases h : A.getD (start + 1) 0 < A.getD start 0
  · refine ⟨swapIdx A start (start + 1), 1, ?_, swapIdx_length _ _ _, ?_, ?_⟩
    · simp only [numInvBase, if_pos h]
    · intro x hx
      simp only [swapIdx]
      rw [getD_set_ne _ _ _ _ (by omega), getD_set_ne _ _ _ _ (by omega)]
    · intro i hi
      have hi0 : i = 0 := by omega
      subst hi0
      simp only [swapIdx, Nat.add_zero]
      rw [getD_set_ne _ _ _ _ (by omega), getD_set_self _ _ _ (by omega),
        getD_set_self _ _ _ (by rw [List.length_set]; omega)]
      exact le_of_lt h
  · refine ⟨A, 0, ?_, rfl, fun x _ => rfl, ?_⟩
    · simp only [numInvBase, if_neg h]
    · intro i hi
      have hi0 : i = 0 := by omega
      subst hi0
      simp only [Nat.add_zero]
      exact not_lt.mp h

/-- Specification of `numInvSort` with adequate fuel: it only touches the
sub-range `[start, start+nitems)`, preserves the length, and leaves the
sub-range sorted in non-decreasing order. -/
theorem numInvSort_spec (fuel : Nat) :
    ∀ nitems, nitems ≤ fuel → ∀ (A : List Int) (start : Nat),
      start + nitems ≤ A.length →
      ∃ B c, numInvSort fuel A start nitems = (B, c)
        ∧ B.length = A.length
        ∧ (∀ x, x < start ∨ start + nitems ≤ x → B.getD x 0 = A.getD x 0)
        ∧ sortedRange B start nitems := by
  induction fuel with
  | zero =>
    intro nitems hfuel A start _
    have h0 : nitems = 0 := by omega
    subst h0
    exact ⟨A, 0, rfl, rfl, fun x _ => rfl, sortedRange_small _ _ _ (by omega)⟩
  | succ fuel ih =>
    intro nitems hfuel A start hlen
    by_cases hn1 : nitems ≤ 1
    · refine ⟨A, 0, ?_, rfl, fun x _ => rfl, sortedRange_small _ _ _ hn1⟩
      simp only [numInvSort, if_pos hn1]
    · by_cases hn2 : nitems = 2
      · subst hn2
        obtain ⟨B, c, e, hlenB, hfr, hso⟩ := numInvBase_spec A start hlen
        refine ⟨B, c, ?_, hlenB, hfr, hso⟩
        simp only [numInvSort, if_neg hn1, if_pos rfl]
        exact e
      · have h3 : 3 ≤ nitems := by omega
        obtain ⟨B1, c1, e1, len1, fr1, so1⟩ :=
          ih (nitems / 2) (by omega) A start (by omega)
        obtain ⟨B2, c2, e2, len2, fr2, so2⟩ :=
          ih (nitems - nitems / 2) (by omega) B1 (start + nitems / 2)
            (by rw [len1]; omega)
        have so1' : sortedRange B2 start (nitems / 2) :=
          sortedRange_congr B1 B2 start (nitems / 2)
            (fun x _ hx2 => fr2 x (Or.inl hx2)) so1
        obtain ⟨B3, rv, e3, len3, fr3, so3⟩ :=
          numInvMerge_spec B2 start (nitems / 2) (nitems - nitems / 2)
            (by omega) (by omega) (by rw [len2, len1]; omega) so1' so2
        refine ⟨B3, c1 + c2 + rv, ?_, ?_, ?_, ?_⟩
        · simp only [numInvSort, if_neg hn1, if_neg hn2]
          rw [e1, e2]
          simp only []
          rw [e3]
        · rw [len3, len2, len1]
        · intro x hx
          rw [fr3 x (by omega), fr2 x (by omega), fr1 x (by omega)]
        · have heq : nitems / 2 + (nitems - nitems / 2) = nitems := by omega
          rw [heq] at so3
          exact so3

/-- Specification of `numInversions`: length preserved and the whole
array sorted on return. -/
theorem numInversions_spec (A : List Int) :
    ∃ B c, numInversions A = (B, c)
      ∧ B.length = A.length
      ∧ sortedRange B 0 A.length := by
  by_cases hn1 : A.length ≤ 1
  · exact ⟨A, 0, by simp only [numInversions, if_pos hn1], rfl,
      sortedRange_small _ _ _ hn1⟩
  · by_cases hn2 : A.length = 2
    · obtain ⟨B, c, e, hlenB, _, hso⟩ := numInvBase_spec A 0 (by omega)
      refine ⟨B, c, ?_, hlenB, ?_⟩
      · simp only [numInversions, if_neg hn1, if_pos hn2]
        exact e
      · rw [hn2]
        exact hso
    · have h3 : 3 ≤ A.length := by omega
      obtain ⟨B1, c1, e1, len1, fr1, so1⟩ :=
        numInvSort_spec A.length (A.length / 2) (by omega) A 0 (by omega)
      obtain ⟨B2, c2, e2, len2, fr2, so2⟩ :=
        numInvSort_spec A.length (A.length - A.length / 2) (by omega) B1
          (0 + A.length / 2) (by rw [len1]; omega)
      have so1' : sortedRange B2 0 (A.length / 2) :=
        sortedRange_congr B1 B2 0 (A.length / 2)
          (fun x _ hx2 => fr2 x (Or.inl (by omega))) so1
      obtain ⟨B3, rv, e3, len3, fr3, so3⟩ :=
        numInvMerge_spec B2 0 (A.length / 2) (A.length - A.length / 2)
          (by omega) (by omega) (by rw [len2, len1]; omega) so1' so2
      refine ⟨B3, c1 + c2 + rv, ?_, ?_, ?_⟩
      · simp only [numInversions, if_neg hn1, if_neg hn2]
        simp only [Nat.zero_add] at e2 e3
        rw [e1, e2]
        simp only []
        rw [e3]
      · rw [len3, len2, len1]
      · have heq : A.length / 2 + (A.length - A.length / 2) = A.length := by
          omega
        rw [heq] at so3
        exact so3

end Inversions

namespace Inversions

/-- On an already-sorted sub-range, `numInvSort` returns 0 and does not
modify the array (every merge takes the first fast path). -/
theorem numInvSort_sorted_id (fuel : Nat) :
    ∀ nitems, nitems ≤ fuel → ∀ (A : List Int) (start : Nat),
      sortedRange A start nitems → numInvSort fuel A start nitems = (A, 0) := by
  induction fuel with
  | zero =>
    intro nitems hfuel A start _
    have h0 : nitems = 0 := by omega
    subst h0
    rfl
  | succ fuel ih =>
    intro nitems hfuel A start hso
    by_cases hn1 : nitems ≤ 1
    · simp only [numInvSort, if_pos hn1]
    · by_cases hn2 : nitems = 2
      · subst hn2
        have hpair := hso 0 (by omega)
        simp only [Nat.add_zero] at hpair
        simp only [numInvSort, if_neg hn1, if_pos rfl, numInvBase,
          if_neg (not_lt.mpr hpair)]
        simp
      · have hsoL : sortedRange A start (nitems / 2) :=
          sortedRange_sub _ _ _ _ _ hso (le_refl _) (by omega)
        have hsoU : sortedRange A (start + nitems / 2) (nitems - nitems / 2) :=
          sortedRange_sub _ _ _ _ _ hso (by omega) (by omega)
        have hpair := sortedRange_pair A start nitems (start + nitems / 2 - 1)
          hso (by omega) (by omega)
        have hfast : A.getD (start + nitems / 2 - 1) 0
            ≤ A.getD (start + nitems / 2) 0 := by
          rw [show start + nitems / 2 - 1 + 1 = start + nitems / 2 from by
            omega] at hpair
          exact hpair
        simp only [numInvSort, if_neg hn1, if_neg hn2]
        rw [ih (nitems / 2) (by omega) A start hsoL]
        simp only []
        rw [ih (nitems - nitems / 2) (by omega) A (start + nitems / 2) hsoU]
        simp only []
        rw [numInvMerge_fast1 _ _ _ _ _ hfast]
        rfl

/-- On an already-sorted array, `numInversions` returns 0 and does not
modify the array. -/
theorem numInversions_sorted_id (A : List Int)
    (h : sortedRange A 0 A.length) : numInversions A = (A, 0) := by
  by_cases hn1 : A.length ≤ 1
  · simp only [numInversions, if_pos hn1]
  · by_cases hn2 : A.length = 2
    · have hpair := h 0 (by omega)
      simp only [Nat.add_zero, Nat.zero_add] at hpair
      simp only [numInversions, if_neg hn1, if_pos hn2, numInvBase,
        if_neg (not_lt.mpr hpair)]
    · have hsoL : sortedRange A 0 (A.length / 2) :=
        sortedRange_sub _ _ _ _ _ h (le_refl _) (by omega)
      have hsoU : sortedRange A (A.length / 2) (A.length - A.length / 2) := by
        have := sortedRange_sub A 0 A.length (0 + A.length / 2)
          (A.length - A.length / 2) h (by omega) (by omega)
        simpa using this
      have hpair := sortedRange_pair A 0 A.length (0 + A.length / 2 - 1) h
        (by omega) (by omega)
      have hfast : A.getD (0 + A.length / 2 - 1) 0
          ≤ A.getD (A.length / 2) 0 := by
        rw [show 0 + A.length / 2 - 1 + 1 = A.length / 2 from by omega]
          at hpair
        exact hpair
      simp only [numInversions, if_neg hn1, if_neg hn2]
      rw [numInvSort_sorted_id A.length (A.length / 2) (by omega) A 0 hsoL]
      simp only []
      rw [numInvSort_sorted_id A.length (A.length - A.length / 2) (by omega)
        A (A.length / 2) hsoU]
      simp only []
      rw [numInvMerge_fast1 _ _ _ _ _ hfast]
      rfl

end Inversions

namespace Inversions

/-- C4: for every sequence `S`, after `numInversions` returns the array is
sorted non-decreasing (`S[i] ≤ S[i+1]` for every adjacent pair of
positions), and likewise every `numInvSort` call (with adequate fuel and
an in-bounds partition descriptor) leaves its sub-range sorted
non-decreasing. -/
theorem claim_C4_sortedness :
    (∀ S : List Int, ∀ i, i + 1 < ((numInversions S).1).length →
      ((numInversions S).1).getD i 0 ≤ ((numInversions S).1).getD (i + 1) 0)
    ∧ (∀ fuel nitems, nitems ≤ fuel → ∀ (A : List Int) (start : Nat),
        start + nitems ≤ A.length → ∀ i, start ≤ i → i + 1 < start + nitems →
        ((numInvSort fuel A start nitems).1).getD i 0
          ≤ ((numInvSort fuel A start nitems).1).getD (i + 1) 0) := by
  constructor
  · intro S i hi
    obtain ⟨B, c, e, hlen, hso⟩ := numInversions_spec S
    rw [e] at hi ⊢
    simp only [] at hi ⊢
    exact sortedRange_pair _ _ _ _ hso (by omega) (by rw [hlen] at hi; omega)
  · intro fuel nitems hfuel A start hlen i h1 h2
    obtain ⟨B, c, e, _, _, hso⟩ := numInvSort_spec fuel nitems hfuel A start hlen
    rw [e]
    simp only []
    exact sortedRange_pair _ _ _ _ hso h1 h2

/-- Witness for C4 at the concrete input `[3,1,2]`. -/
theorem claim_C4_sortedness_witness :
    (0 + 1 < ((numInversions [3, 1, 2]).1).length
      ∧ ((numInversions [3, 1, 2]).1).getD 0 0
          ≤ ((numInversions [3, 1, 2]).1).getD (0 + 1) 0)
    ∧ (2 ≤ 2 ∧ 0 + 2 ≤ ([2, 1] : List Int).length ∧ 0 ≤ 0 ∧ 0 + 1 < 0 + 2
      ∧ ((numInvSort 2 [2, 1] 0 2).1).getD 0 0
          ≤ ((numInvSort 2 [2, 1] 0 2).1).getD (0 + 1) 0) :=
  ⟨⟨by decide, claim_C4_sortedness.1 [3, 1, 2] 0 (by decide)⟩,
   ⟨by decide, by decide, by decide, by decide,
    claim_C4_sortedness.2 2 2 (by decide) [2, 1] 0 (by decide) 0 (by decide)
      (by decide)⟩⟩

/-- C6: sorting is idempotent — for every sequence `S`, running
`numInversions` a second time on the output of the first run returns 0
and leaves the array element-for-element unchanged. -/
theorem claim_C6_idempotent (S : List Int) :
    numInversions (numInversions S).1 = ((numInversions S).1, 0) := by
  obtain ⟨B, c, e, hlen, hso⟩ := numInversions_spec S
  rw [e]
  simp only []
  apply numInversions_sorted_id
  rw [hlen]
  exact hso

end Inversions

namespace Inversions

/-- C5: when `numInvMerge` is called on two adjacent sorted halves with
`n_lo = n_hi`, the first fast path not applicable (last lower element
greater than first upper element) and the last upper element `≤` the
first lower element, it exchanges the two blocks as whole units (the
resulting sub-range is the former upper block followed by the former
lower block) and returns exactly `n_lo * n_hi = n_lo * n_lo`
inversions. -/
theorem claim_C5_block_exchange (A : List Int) (lo nlo : Nat)
    (hnlo : 1 ≤ nlo) (hlen : lo + nlo + nlo ≤ A.length)
    (hsortL : sortedRange A lo nlo) (hsortU : sortedRange A (lo + nlo) nlo)
    (hf1 : ¬ (A.getD (lo + nlo - 1) 0 ≤ A.getD (lo + nlo) 0))
    (hf2 : A.getD (lo + nlo + nlo - 1) 0 ≤ A.getD lo 0) :
    numInvMerge A lo (lo + nlo) nlo nlo
      = (swapChunk A lo (lo + nlo) nlo, nlo * nlo)
    ∧ (∀ t, t < nlo →
        (swapChunk A lo (lo + nlo) nlo).getD (lo + t) 0
            = A.getD (lo + nlo + t) 0
        ∧ (swapChunk A lo (lo + nlo) nlo).getD (lo + nlo + t) 0
            = A.getD (lo + t) 0) := by
  constructor
  · exact numInvMerge_fast2 _ _ _ _ _ hf1 rfl hf2
  · intro t ht
    constructor
    · rw [swapChunk_getD_low _ _ _ _ _ (le_refl _) (by omega) (by omega)
        (by omega)]
      rw [show lo + nlo + (lo + t - lo) = lo + nlo + t from by omega]
    · rw [swapChunk_getD_high _ _ _ _ _ (le_refl _) (by omega) (by omega)
        (by omega)]
      rw [show lo + (lo + nlo + t - (lo + nlo)) = lo + t from by omega]

/-- Witness for C5 at the concrete input `[3,4,1,2]` (`lo = 0`,
`n_lo = n_hi = 2`): the blocks are exchanged and 4 inversions
returned. -/
theorem claim_C5_block_exchange_witness :
    (1 ≤ 2 ∧ 0 + 2 + 2 ≤ ([3, 4, 1, 2] : List Int).length
      ∧ sortedRange [3, 4, 1, 2] 0 2 ∧ sortedRange [3, 4, 1, 2] (0 + 2) 2
      ∧ ¬ (([3, 4, 1, 2] : List Int).getD (0 + 2 - 1) 0
            ≤ ([3, 4, 1, 2] : List Int).getD (0 + 2) 0)
      ∧ ([3, 4, 1, 2] : List Int).getD (0 + 2 + 2 - 1) 0
          ≤ ([3, 4, 1, 2] : List Int).getD 0 0)
    ∧ numInvMerge [3, 4, 1, 2] 0 (0 + 2) 2 2
        = (swapChunk [3, 4, 1, 2] 0 (0 + 2) 2, 2 * 2) :=
  ⟨⟨by decide, by decide, by decide, by decide, by decide, by decide⟩,
   (claim_C5_block_exchange [3, 4, 1, 2] 0 2 (by decide) (by decide)
     (by decide) (by decide) (by decide) (by decide)).1⟩

/-- C3 counterexample: on a direct merge call with leftover lower-half
elements after the loop (array `[2,4,3]`, `lo = 0`, `hi = 2`,
`n_lo = 2`, `n_hi = 1`), the in-loop increments total 1, but
`numInvMerge` returns 2: the code at lines 235-243 re-adds
`leftover_lo_items * nitems_hi` after the loop, so the returned
cross-half count does NOT consist only of the loop increments. -/
theorem claim_C3_counterexample :
    numInvMerge [2, 4, 3] 0 2 2 1 = ([2, 3, 3], 2)
    ∧ (mergeLoop (0 + 2) (2 + 1) (2 + 1) ⟨[2, 4, 3], 0, 2, 0, 0⟩).rv = 1
    ∧ (mergeLoop (0 + 2) (2 + 1) (2 + 1) ⟨[2, 4, 3], 0, 2, 0, 0⟩).lop
        < 0 + 2 := by
  refine ⟨by decide, by decide, by decide⟩

/-- C3 (amended): in every merge call of the shape the recursion produces
(`hi = lo + n_lo`, `1 ≤ n_lo`, `2 ≤ n_hi`, both halves sorted, in
bounds) that reaches the main loop, the loop exhausts the lower half
(`lop = loend` on exit), so no leftover lower-half elements remain, the
leftover bulk copy does not execute, and the value returned is exactly
the loop's `rv` — only the increments made during the loop. -/
theorem claim_C3_no_leftover_readd (A : List Int) (lo nlo nhi : Nat)
    (hnlo : 1 ≤ nlo) (hnhi : 2 ≤ nhi) (hlen : lo + nlo + nhi ≤ A.length)
    (hL : sortedRange A lo nlo) (hU : sortedRange A (lo + nlo) nhi)
    (hf1 : ¬ (A.getD (lo + nlo - 1) 0 ≤ A.getD (lo + nlo) 0))
    (hf2 : ¬ (nlo = nhi ∧ A.getD (lo + nlo + nlo - 1) 0 ≤ A.getD lo 0)) :
    (mergeLoop (lo + nlo) (lo + nlo + nhi) (nlo + nhi)
        ⟨A, lo, lo + nlo, lo, 0⟩).lop = lo + nlo
    ∧ numInvMerge A lo (lo + nlo) nlo nhi
        = ((mergeLoop (lo + nlo) (lo + nlo + nhi) (nlo + nhi)
              ⟨A, lo, lo + nlo, lo, 0⟩).nums,
           (mergeLoop (lo + nlo) (lo + nlo + nhi) (nlo + nhi)
              ⟨A, lo, lo + nlo, lo, 0⟩).rv) := by
  have hlast : A.getD (lo + nlo) 0 < A.getD (lo + nlo - 1) 0 := not_le.mp hf1
  have hex : ∃ t, A.getD (lo + nlo) 0 < A.getD (lo + t) 0 :=
    ⟨nlo - 1, by rw [show lo + (nlo - 1) = lo + nlo - 1 from by omega]
                 exact hlast⟩
  have hkgt : A.getD (lo + nlo) 0 < A.getD (lo + Nat.find hex) 0 :=
    Nat.find_spec hex
  have hk : Nat.find hex < nlo := by
    have := Nat.find_min' hex
      (by rw [show lo + (nlo - 1) = lo + nlo - 1 from by omega]
          exact hlast)
    omega
  have hkle : ∀ t, t < Nat.find hex →
      A.getD (lo + t) 0 ≤ A.getD (lo + nlo) 0 :=
    fun t ht => not_lt.mp (Nat.find_min hex ht)
  have hU01 : A.getD (lo + nlo) 0 ≤ A.getD (lo + nlo + 1) 0 :=
    sortedRange_pair _ _ _ _ hU (le_refl _) (by omega)
  have hrun := mergeLoop_run A lo nlo nhi (Nat.find hex) hlen hk hnhi hkle
    hkgt hU01
  have hmerge := numInvMerge_loop A lo nlo nhi (Nat.find hex) hlen hk hnhi
    hkle hkgt hU01 hf1 hf2
  rw [hrun, hmerge]
  exact ⟨rfl, rfl⟩

/-- Witness for the amended C3 at the concrete input `[2,4,1,3]`
(`lo = 0`, `n_lo = n_hi = 2`): the loop ends with `lop = loend = 2` and
the merge returns exactly the loop's array and count. -/
theorem claim_C3_no_leftover_readd_witness :
    (1 ≤ 2 ∧ 2 ≤ 2 ∧ 0 + 2 + 2 ≤ ([2, 4, 1, 3] : List Int).length
      ∧ sortedRange [2, 4, 1, 3] 0 2 ∧ sortedRange [2, 4, 1, 3] (0 + 2) 2
      ∧ ¬ (([2, 4, 1, 3] : List Int).getD (0 + 2 - 1) 0
            ≤ ([2, 4, 1, 3] : List Int).getD (0 + 2) 0)
      ∧ ¬ (2 = 2 ∧ ([2, 4, 1, 3] : List Int).getD (0 + 2 + 2 - 1) 0
            ≤ ([2, 4, 1, 3] : List Int).getD 0 0))
    ∧ (mergeLoop (0 + 2) (0 + 2 + 2) (2 + 2)
          ⟨[2, 4, 1, 3], 0, 0 + 2, 0, 0⟩).lop = 0 + 2
    ∧ numInvMerge [2, 4, 1, 3] 0 (0 + 2) 2 2
        = ((mergeLoop (0 + 2) (0 + 2 + 2) (2 + 2)
              ⟨[2, 4, 1, 3], 0, 0 + 2, 0, 0⟩).nums,
           (mergeLoop (0 + 2) (0 + 2 + 2) (2 + 2)
              ⟨[2, 4, 1, 3], 0, 0 + 2, 0, 0⟩).rv) :=
  ⟨⟨by decide, by decide, by decide, by decide, by decide, by decide,
    by decide⟩,
   claim_C3_no_leftover_readd [2, 4, 1, 3] 0 2 2 (by decide) (by decide)
     (by decide) (by decide) (by decide) (by decide) (by decide)⟩

/-- C1: the inversion count is broken.  On the spec's own worked example
`S = [5,4,3,2,1]` the true inversion count (O(N²) pairwise oracle) is
10, but `numInversions` returns 5 and corrupts the array to
`[1,1,1,1,2]` (the merge loop reads `numbers` through `lop`/`hip` while
overwriting it — the `src_lo`/`src_hi` copies are never read). -/
theorem claim_C1_count_wrong :
    numInversions [5, 4, 3, 2, 1] = ([1, 1, 1, 1, 2], 5)
    ∧ specInversionCount [5, 4, 3, 2, 1] = 10 := by
  refine ⟨by decide, by decide⟩

/-- C9: the merge step does not preserve the multiset of elements.  After
`numInversions [5,4,3,2,1]` the array is `[1,1,1,1,2]`, which is not a
permutation of the input (3, 4, 5 are lost; 1 is multiplied). -/
theorem claim_C9_not_permutation :
    (numInversions [5, 4, 3, 2, 1]).1 = [1, 1, 1, 1, 2]
    ∧ ¬ ([1, 1, 1, 1, 2] : List Int).Perm [5, 4, 3, 2, 1] := by
  refine ⟨by decide, by decide⟩

end Inversions

namespace InversionsDraft

/-- C7: in the draft `src/findInversions.cpp`, `numInversions` on any
sequence of length N > 2 returns `-1` — a negative value, with the
recursion unimplemented — not a non-negative sum of lower-half,
upper-half and cross-half counts (the true count of `[2,1,3]` is 1). -/
theorem claim_C7_draft_returns_minus_one :
    numInversions [2, 1, 3] = ([2, 1, 3], -1)
    ∧ ((-1 : Int) < 0)
    ∧ Inversions.specInversionCount [2, 1, 3] = 1 := by
  refine ⟨by decide, by decide, by decide⟩

end InversionsDraft

namespace maxSumKEntriesArray

/-- The running best of the brute-force loop is the `max` of its initial
value and the sums of the windows visited. -/
theorem bruteLoop_fst (a : List Int) (k : Nat) (L : List Nat) :
    ∀ acc : Int × Int,
      (L.foldl (fun acc start =>
        let thisMaxSum := findSumOfN a start k
        if acc.1 < thisMaxSum then (thisMaxSum, (start : Int)) else acc)
          acc).1
      = L.foldl (fun m start => max m (findSumOfN a start k)) acc.1 := by
  induction L with
  | nil => intro acc; rfl
  | cons s L ih =>
    intro acc
    simp only [List.foldl_cons]
    rw [ih]
    congr 1
    dsimp only
    split_ifs with h
    · exact (max_eq_right h.le).symm
    · exact (max_eq_left (not_lt.mp h)).symm

theorem maxLoop_pull (a : List Int) (k : Nat) (L : List Nat) :
    ∀ x y : Int,
      L.foldl (fun m start => max m (findSumOfN a start k)) (max x y)
        = max x (L.foldl (fun m start => max m (findSumOfN a start k)) y) := by
  induction L with
  | nil => intro x y; rfl
  | cons s L ih =>
    intro x y
    simp only [List.foldl_cons]
    rw [max_assoc]
    exact ih x (max y (findSumOfN a s k))

/-- If the running best is non-negative and every remaining window sum is
`≤ 0`, the brute-force loop never updates its accumulator (in
particular, it never writes `*maxStartIndex`). -/
theorem bruteLoop_untouched (a : List Int) (k : Nat) (L : List Nat) :
    ∀ acc : Int × Int, 0 ≤ acc.1 → (∀ s ∈ L, findSumOfN a s k ≤ 0) →
      L.foldl (fun acc start =>
        let thisMaxSum := findSumOfN a start k
        if acc.1 < thisMaxSum then (thisMaxSum, (start : Int)) else acc) acc
      = acc := by
  induction L with
  | nil => intro acc _ _; rfl
  | cons s L ih =>
    intro acc h0 hall
    simp only [List.foldl_cons]
    have hns : ¬ (acc.1 < findSumOfN a s k) := by
      have := hall s (by simp)
      omega
    show List.foldl _
        (if acc.1 < findSumOfN a s k then (findSumOfN a s k, (s : Int))
         else acc) L = acc
    rw [if_neg hns]
    exact ih acc h0 (fun t ht => hall t (by simp [ht]))

/-- C10: for `k < N` the brute-force oracle returns `max 0 M`, where `M`
is the true maximum window sum, because its running best starts at 0 and
only strictly larger sums replace it; when every window sum is `≤ 0` it
returns 0 and leaves `*maxStartIndex` at whatever value the caller
passed in (never writes it). -/
theorem claim_C10_bruteforce_max0 (S : List Int) (k : Nat) (init : Int)
    (h : k < S.length) :
    (findMaxSumK_BruteForce S k init).1 = max 0 (maxWindowSum S k)
    ∧ ((∀ x ∈ windowSums S k, x ≤ 0) →
        findMaxSumK_BruteForce S k init = (0, init)) := by
  have hru : ¬ (S.length ≤ k) := by omega
  constructor
  · simp only [findMaxSumK_BruteForce, if_neg hru]
    rw [bruteLoop_fst]
    show (List.range (S.length + 1 - k)).foldl
        (fun m start => max m (findSumOfN S start k)) 0
      = max 0 (maxWindowSum S k)
    rw [maxWindowSum, windowSums, List.foldl_map]
    rw [show S.length + 1 - k = (S.length - k) + 1 from by omega,
      List.range_succ_eq_map]
    simp only [List.foldl_cons]
    rw [max_self]
    exact maxLoop_pull S k _ 0 (findSumOfN S 0 k)
  · intro hall
    simp only [findMaxSumK_BruteForce, if_neg hru]
    apply bruteLoop_untouched
    · exact le_refl 0
    · intro s hs
      apply hall
      rw [windowSums]
      exact List.mem_map_of_mem _ hs

/-- Witness for C10 at `S = [-1,-2]`, `k = 1`, initial index value `-7`:
both window sums are negative, so the oracle returns 0 and the index
cell keeps the caller's `-7`. -/
theorem claim_C10_bruteforce_max0_witness :
    (1 < ([-1, -2] : List Int).length)
    ∧ ((findMaxSumK_BruteForce [-1, -2] 1 (-7)).1
          = max 0 (maxWindowSum [-1, -2] 1)
      ∧ ((∀ x ∈ windowSums [-1, -2] 1, x ≤ 0) →
          findMaxSumK_BruteForce [-1, -2] 1 (-7) = (0, -7))) :=
  ⟨by decide, claim_C10_bruteforce_max0 [-1, -2] 1 (-7) (by decide)⟩

/-- C2: the optimized sliding window and the brute-force oracle do NOT
agree for all valid inputs.  On `S = [-1,-2]`, `k = 1` (initial index
value `-1`, as in `verify()`), the brute force returns sum 0 with the
index never written, while the sliding window returns the true maximum
`-1` with start index 0: the oracle's running best is initialized to 0
instead of the first window's sum. -/
theorem claim_C2_methods_disagree :
    findMaxSumK_BruteForce [-1, -2] 1 (-1) = (0, -1)
    ∧ findMaxSum [-1, -2] 1 = (-1, 0)
    ∧ (findMaxSumK_BruteForce [-1, -2] 1 (-1)).1
        ≠ (findMaxSum [-1, -2] 1).1 := by
  refine ⟨by decide, by decide, by decide⟩

/-- C8 counterexample: `findMaxSum` on the empty sequence with `k = 1`
does not reach any error branch (the code contains no assertion at all);
it takes the `k ≥ arraySize` short-circuit and returns the defined
result `(0, 0)`. -/
theorem claim_C8_counterexample : findMaxSum ([] : List Int) 1 = (0, 0) := by
  decide

/-- C8 (amended): for every `k ≥ 1`, calling `findMaxSum` on the empty
sequence takes the `k ≥ arraySize` whole-array short-circuit and returns
the defined pair `(0, 0)` (sum over zero entries, start index 0); no
assertion failure occurs. -/
theorem claim_C8_empty_defined (k : Nat) (h : 1 ≤ k) :
    findMaxSum ([] : List Int) k = (0, 0) := by
  simp only [findMaxSum, List.length_nil]
  rw [if_pos (Nat.zero_le k)]
  rfl

/-- Witness for the amended C8 at `k = 2`. -/
theorem claim_C8_empty_defined_witness :
    1 ≤ 2 ∧ findMaxSum ([] : List Int) 2 = (0, 0) :=
  ⟨by decide, claim_C8_empty_defined 2 (by decide)⟩

end maxSumKEntriesArray
